import Mathlib

set_option maxRecDepth 4000

/-!
Verification of the quantitative-finance core of a market-review web app:
the cache/merge layer (`syncData`), the indicator engine (`calculateMA`,
`calculateHDY`) and the backtest simulator (`runStrategy`).

The TypeScript sources are embedded shallowly:
* JavaScript numbers are modelled by `ℚ` (exact rationals).  `NaN` and the
  infinities are not representable; where the source compares against
  `-Infinity` / `Infinity` the accumulator is modelled by `Option ℚ` with
  `none` playing the role of the unreached sentinel, which yields the same
  observable behaviour for every nonempty scan.  `isNaN` tests on parsed
  bar fields are `false` in this model (upstream parsing filters `NaN`).
* `x.toFixed(k)` followed by `parseFloat` is modelled as exact decimal
  rounding, half away from zero, matching JS on all inputs whose decimal
  expansion is exact in the model.
* The asynchronous cache/fetch effects of `syncData` are modelled by
  explicit parameters: the outcome of the cache read, a total fetch
  function, and a flag saying whether the persistence write succeeds; the
  function returns both the merged sequence and what (if anything) was
  written to the store.
-/

/-- Rounding as JavaScript's `toFixed`: to the nearest integer, ties away
from zero.  Written with `Rat.floor` (rather than `round`, which is stated
through the `FloorRing` class) so that it evaluates by kernel reduction. -/
def jsRound (q : ℚ) : ℤ :=
  if q < 0 then -(((-q) + 1/2).floor) else ((q + 1/2).floor)

/-- `parseFloat(x.toFixed(4))`: round to 4 fractional decimal digits. -/
def round4 (q : ℚ) : ℚ :=
  (jsRound (q * 10000) : ℚ) / 10000

/-- `parseFloat(x.toFixed(2))`: round to 2 fractional decimal digits. -/
def round2 (q : ℚ) : ℚ :=
  (jsRound (q * 100) : ℚ) / 100

/-- Two-digit zero padding for the fractional part of `toFixed(2)`. -/
def pad2 (n : ℕ) : String :=
  if n < 10 then "0" ++ toString n else toString n

/-- JavaScript's `x.toFixed(2)` as a string, for exact-decimal inputs. -/
def jsToFixed2 (q : ℚ) : String :=
  let n := jsRound (q * 100)
  let a := n.natAbs
  (if n < 0 then "-" else "") ++ toString (a / 100) ++ "." ++ pad2 (a % 100)

/-- JavaScript's `x.toFixed(0)` as a string, for exact-decimal inputs. -/
def jsToFixed0 (q : ℚ) : String :=
  let n := jsRound q
  (if n < 0 then "-" else "") ++ toString n.natAbs

/-- `v || d` on an optionally-absent JS number: `undefined`, and the falsy
number `0`, both fall back to the default. -/
def jsOrDefault (v : Option ℚ) (d : ℚ) : ℚ :=
  match v with
  | none => d
  | some x => if x = 0 then d else x

/-- The bar record of `types.ts` (`StockDataPoint`).  `open`, `high`, `low`
and `bondPrice` are optional there; the display-only fields (`index`,
`maShort`, `maLong`, `maCustom`, `hdy`) are never read by the verified core
and are omitted.  `open` is renamed `openPrice` (Lean keyword). -/
structure StockDataPoint where
  date : String
  close : ℚ
  openPrice : Option ℚ := none
  high : Option ℚ := none
  low : Option ℚ := none
  volume : ℚ := 0
  bondPrice : Option ℚ := none
deriving DecidableEq, Repr

instance : Inhabited StockDataPoint :=
  ⟨{ date := "", close := 0 }⟩

/-- Result of one `syncData` call: the sequence returned to the caller and
the sequence persisted to the cache store, if any write happened. -/
structure SyncOutcome where
  result : List StockDataPoint
  written : Option (List StockDataPoint)
deriving DecidableEq, Repr

/-- `syncData` from `services.ts`.  `cacheRead` is the outcome of
`localforage.getItem` (`.error` = the read threw, `.ok none` = key absent,
`.ok (some l)` = cached sequence `l`); `fetchFn` is the caller-supplied
fetch; `writeOk` tells whether `localforage.setItem` succeeds when reached
(when it fails, the `catch` block falls back to `fetchFn none`). -/
def syncData (cacheRead : Except Unit (Option (List StockDataPoint)))
    (fetchFn : Option String → List StockDataPoint)
    (writeOk : Bool) : SyncOutcome :=
  match cacheRead with
  | .error _ => { result := fetchFn none, written := none }
  | .ok v =>
      let cached := v.getD []
      let lastDate? : Option String := cached.getLast?.map (·.date)
      let newData := fetchFn lastDate?
      if newData.isEmpty then { result := cached, written := none }
      else
        match lastDate? with
        | some lastDate =>
            let freshData := newData.filter (fun d => lastDate < d.date)
            if freshData.isEmpty then { result := cached, written := none }
            else
              let finalData := cached ++ freshData
              if writeOk then { result := finalData, written := some finalData }
              else { result := fetchFn none, written := none }
        | none =>
            if writeOk then { result := newData, written := some newData }
            else { result := fetchFn none, written := none }

/-- Cache-store contents after a sync call, given the previous contents. -/
def cacheAfter (prev : Option (List StockDataPoint)) (o : SyncOutcome) :
    Option (List StockDataPoint) :=
  match o.written with
  | some l => some l
  | none => prev

/-- Dates of a bar sequence are strictly increasing by index. -/
def strictDates (l : List StockDataPoint) : Prop :=
  (l.map (·.date)).Chain' (· < ·)

/-- Boolean strict-chain check on date lists (kernel-computable stand-in
for `List.Chain'`). -/
def chainLtB : List String → Bool
  | [] => true
  | [_] => true
  | a :: b :: t => decide (a < b) && chainLtB (b :: t)

/-- `calculateMA` from `utils.ts`.  The JS version selects the averaged
field by a string key; the selector is modelled as a function.  For
`i < dayCount - 1` the entry is `null` (`none`); otherwise it is the mean
of the field over bars `i - dayCount + 1 … i`, rounded to 4 decimals. -/
def calculateMA (dayCount : ℕ) (data : List StockDataPoint)
    (field : StockDataPoint → ℚ) : List (Option ℚ) :=
  (List.range data.length).map (fun i =>
    if i < dayCount - 1 then none
    else
      let sum := ((List.range dayCount).map
        (fun j => field (data.getD (i - j) default))).sum
      some (round4 (sum / (dayCount : ℚ))))

/-- Lookback of the HDY oscillator (`N` in `calculateHDY`). -/
def hdyN : ℕ := 34

/-- Smoothing constant of the HDY oscillator (`M` in `calculateHDY`). -/
def hdyM : ℚ := 3

/-- The `maxH` scan of `calculateHDY`: fold of `(high ?? 0)` over the
window, starting from `-Infinity` (modelled by `none`, which every number
strictly exceeds). -/
def jsMaxHigh (w : List StockDataPoint) : Option ℚ :=
  w.foldl (fun m b =>
    match m with
    | none => some (b.high.getD 0)
    | some m0 => if m0 < b.high.getD 0 then some (b.high.getD 0) else some m0)
    none

/-- The `minL` scan of `calculateHDY`: fold of `(low ?? 0)` over the
window, starting from `Infinity` (modelled by `none`). -/
def jsMinLow (w : List StockDataPoint) : Option ℚ :=
  w.foldl (fun m b =>
    match m with
    | none => some (b.low.getD 0)
    | some m0 => if b.low.getD 0 < m0 then some (b.low.getD 0) else some m0)
    none

/-- The raw stochastic value of `calculateHDY` at index `i` (its window is
bars `i - N + 1 … i`): `rsv = (close - minL) / (maxH - minL) * 100` when
`maxH !== minL && maxH !== -Infinity`, else the neutral `50`. -/
def hdyRsv (data : List StockDataPoint) (i : ℕ) : ℚ :=
  let w := (data.drop (i + 1 - hdyN)).take hdyN
  match jsMaxHigh w, jsMinLow w with
  | some maxH, some minL =>
      if maxH ≠ minL then
        ((data.getD i default).close - minL) / (maxH - minL) * 100
      else 50
  | _, _ => 50

/-- One iteration of the `calculateHDY` loop: the accumulator carries the
output list built so far and `lastEMA`. -/
def hdyStep (data : List StockDataPoint) (acc : List ℚ × ℚ) (i : ℕ) :
    List ℚ × ℚ :=
  if i < hdyN then (acc.1 ++ [(50 : ℚ)], acc.2)
  else
    let rsv := hdyRsv data i
    let stdEMA := (2 * rsv + (hdyM - 1) * acc.2) / (hdyM + 1)
    (acc.1 ++ [round2 stdEMA], stdEMA)

/-- `calculateHDY` from `utils.ts`: indices below `N = 34` emit the neutral
`50`; later indices emit the 2-decimal rounding of the recursively smoothed
`rsv`, with the unrounded value seeding the next index. -/
def calculateHDY (data : List StockDataPoint) : List ℚ :=
  ((List.range data.length).foldl (hdyStep data) (([] : List ℚ), (50 : ℚ))).1

/-- Trade side (`type` field of `Trade` in `types.ts`). -/
inductive TradeType where
  | buy
  | sell
deriving DecidableEq, Repr

/-- `Trade` from `types.ts`. -/
structure Trade where
  date : String
  type : TradeType
  price : ℚ
  desc : String
deriving DecidableEq, Repr

instance : Inhabited Trade :=
  ⟨{ date := "", type := .buy, price := 0, desc := "" }⟩

/-- One `{ date, value }` point of a capital or benchmark curve. -/
structure CurvePoint where
  date : String
  value : ℚ
deriving DecidableEq, Repr

/-- `BacktestResult` from `types.ts`. -/
structure BacktestResult where
  trades : List Trade
  capitalCurve : List CurvePoint
  benchmarkCurve : List CurvePoint
  finalNetValue : ℚ
  returnRate : String
  benchmarkReturn : String
  winRate : String
  tradeCount : ℕ
deriving DecidableEq, Repr

/-- The mutable locals of the `runStrategy` loop. -/
structure StratState where
  cash : ℚ
  holdings : ℚ
  trades : List Trade
  capitalCurve : List CurvePoint
  benchmarkCurve : List CurvePoint
deriving DecidableEq, Repr

/-- The `action` local of the `runStrategy` loop body. -/
inductive StratAction where
  | buy
  | sell
  | hold
deriving DecidableEq, Repr

/-- `initialCapital` in `runStrategy`. -/
def initialCapital : ℚ := 100000

/-- The `startIndex` scan of `runStrategy`, from `i` upwards: advance while
`ma100[startIndex] === null` (the `isNaN(close)` disjunct of the source is
identically false in this model, where every close is a rational).  The
loop guard `startIndex < data.length` is rendered structurally: `fuel`
counts the remaining indices below `data.length`, so `fuel = 0` exactly
when the guard fails. -/
def findStartAux (ma100 : List (Option ℚ)) : ℕ → ℕ → ℕ
  | 0, i => i
  | fuel + 1, i =>
      if ma100.getD i none = none then findStartAux ma100 fuel (i + 1) else i

/-- `startIndex` of `runStrategy`: the scan starts at 100. -/
def findStartIndex (data : List StockDataPoint)
    (ma100 : List (Option ℚ)) : ℕ :=
  findStartAux ma100 (data.length - 100) 100

/-- The signal decision of the `runStrategy` loop body: with all four
moving-average values available, a death cross (checked second in the
source, hence taking precedence) signals `sell`, a golden cross `buy`;
otherwise `hold`. -/
def strategySignal (prevMA10 prevMA100 currMA10 currMA100 : Option ℚ) :
    StratAction :=
  match prevMA10, prevMA100, currMA10, currMA100 with
  | some pS, some pL, some cS, some cL =>
      if pL ≤ pS ∧ cS < cL then .sell
      else if pS ≤ pL ∧ cL < cS then .buy
      else .hold
  | _, _, _, _ => .hold

/-- The body of the `runStrategy` loop at index `i`.  Indices before
`startIndex` only pad both curves with net value 1. -/
def stratStep (data : List StockDataPoint) (ma10 ma100 : List (Option ℚ))
    (startIndex : ℕ) (initialPrice : ℚ) (s : StratState) (i : ℕ) :
    StratState :=
  if i < startIndex then
    { s with
      capitalCurve := s.capitalCurve ++ [⟨(data.getD i default).date, 1⟩],
      benchmarkCurve := s.benchmarkCurve ++ [⟨(data.getD i default).date, 1⟩] }
  else
    let price := (data.getD i default).close
    let date := (data.getD i default).date
    let s1 : StratState := { s with
      benchmarkCurve := s.benchmarkCurve ++ [⟨date, round4 (price / initialPrice)⟩] }
    let action := strategySignal (ma10.getD (i - 1) none) (ma100.getD (i - 1) none)
      (ma10.getD i none) (ma100.getD i none)
    let s2 : StratState :=
      if action = .buy ∧ s1.holdings = 0 then
        { s1 with
          holdings := s1.cash / price
          cash := 0
          trades := s1.trades ++ [⟨date, .buy, price, "金叉买入"⟩] }
      else if action = .sell ∧ 0 < s1.holdings then
        { s1 with
          cash := s1.holdings * price
          holdings := 0
          trades := s1.trades ++ [⟨date, .sell, price, "死叉卖出"⟩] }
      else s1
    { s2 with
      capitalCurve := s2.capitalCurve ++
        [⟨date, round4 ((s2.cash + s2.holdings * price) / initialCapital)⟩] }

/-- The win-trade count of `runStrategy`: sells whose price exceeds the
price of `trades[i - 1]` (JS index `-1` would crash; in this model it
reads index `0`, where the comparison is irreflexively false, matching the
reachable behaviour since the first trade is never a sell). -/
def codeWinTrades (trades : List Trade) : ℕ :=
  (trades.enum.filter (fun p =>
    p.2.type = .sell ∧ (trades.getD (p.1 - 1) default).price < p.2.price)).length

/-- The neutral `BacktestResult` returned when no valid start index exists. -/
def neutralResult : BacktestResult :=
  { trades := []
    capitalCurve := []
    benchmarkCurve := []
    finalNetValue := 1
    returnRate := "0.00"
    benchmarkReturn := "0.00"
    winRate := "0"
    tradeCount := 0 }

/-- `runStrategy` from `utils.ts`. -/
def runStrategy (data : List StockDataPoint) : BacktestResult :=
  let ma10 := calculateMA 10 data (·.volume)
  let ma100 := calculateMA 100 data (·.volume)
  let startIndex := findStartIndex data ma100
  if data.length ≤ startIndex then neutralResult
  else
    let initialPrice := (data.getD startIndex default).close
    let final := (List.range data.length).foldl
      (stratStep data ma10 ma100 startIndex initialPrice)
      { cash := 100000, holdings := 0, trades := [],
        capitalCurve := [], benchmarkCurve := [] }
    let finalNetValue := jsOrDefault (final.capitalCurve.getLast?.map (·.value)) 1
    let finalBenchmarkNetValue :=
      jsOrDefault (final.benchmarkCurve.getLast?.map (·.value)) 1
    let totalSellTrades := (final.trades.filter (fun t => t.type = .sell)).length
    let winTrades := codeWinTrades final.trades
    { trades := final.trades
      capitalCurve := final.capitalCurve
      benchmarkCurve := final.benchmarkCurve
      finalNetValue := finalNetValue
      returnRate := jsToFixed2 ((finalNetValue - 1) * 100)
      benchmarkReturn := jsToFixed2 ((finalBenchmarkNetValue - 1) * 100)
      winRate := if 0 < totalSellTrades then
          jsToFixed0 ((winTrades : ℚ) / (totalSellTrades : ℚ) * 100)
        else "0"
      tradeCount := final.trades.length }

/-- In a strictly sorted list, every element is at most the last one. -/
theorem pairwise_le_getLast {l : List String} {d : String}
    (h : l.Pairwise (· < ·)) (hl : l.getLast? = some d) :
    ∀ x ∈ l, x ≤ d := by
  induction l with
  | nil => simp at hl
  | cons a t ih =>
    cases t with
    | nil =>
      simp at hl
      subst hl
      simp
    | cons b t' =>
      rw [List.getLast?_cons_cons] at hl
      rcases List.pairwise_cons.mp h with ⟨ha, ht⟩
      intro x hx
      rcases List.mem_cons.mp hx with rfl | hx'
      · refine le_of_lt (ha d ?_)
        rcases List.mem_getLast?_eq_getLast (Option.mem_iff.mpr hl) with ⟨hne, rfl⟩
        exact List.getLast_mem hne
      · exact ih ht hl x hx'

/-- Strictly increasing dates imply duplicate-free dates. -/
theorem strictDates_nodup {l : List StockDataPoint} (h : strictDates l) :
    (l.map (·.date)).Nodup := by
  unfold strictDates at h
  rw [List.chain'_iff_pairwise] at h
  exact h.imp ne_of_lt

/-- Appending bars filtered to dates strictly beyond the cached last date
preserves strictly increasing dates. -/
theorem strictDates_append_filter {cached newData : List StockDataPoint}
    {lastBar : StockDataPoint} (hc : strictDates cached)
    (hn : strictDates newData) (hl : cached.getLast? = some lastBar) :
    strictDates (cached ++ newData.filter (fun d => lastBar.date < d.date)) := by
  unfold strictDates at hc hn ⊢
  rw [List.chain'_iff_pairwise] at hc hn ⊢
  rw [List.map_append, List.pairwise_append]
  refine ⟨hc, ?_, ?_⟩
  · exact hn.sublist ((List.filter_sublist newData).map (·.date))
  · intro x hx y hy
    rcases List.mem_map.mp hx with ⟨bx, hbx, rfl⟩
    rcases List.mem_map.mp hy with ⟨by_, hby, rfl⟩
    rcases List.mem_filter.mp hby with ⟨_, hgt⟩
    have hx_le : bx.date ≤ lastBar.date := by
      have hlm : (cached.map (·.date)).getLast? = some lastBar.date := by
        rw [List.getLast?_map, hl]
        rfl
      exact pairwise_le_getLast hc hlm bx.date (List.mem_map_of_mem _ hbx)
    exact lt_of_le_of_lt hx_le (by simpa using hgt)

theorem chainLtB_iff (l : List String) :
    chainLtB l = true ↔ l.Chain' (· < ·) := by
  match l with
  | [] => simp [chainLtB]
  | [a] => simp [chainLtB]
  | a :: b :: t =>
    rw [List.chain'_cons]
    simp [chainLtB, chainLtB_iff (b :: t), and_comm]

theorem strictDates_iff (l : List StockDataPoint) :
    strictDates l ↔ chainLtB (l.map (·.date)) = true :=
  (chainLtB_iff _).symm

/-- Core merge invariant: whatever the cache read yields, if the cached
sequence and every fetch result have strictly increasing dates, so does
the sequence `syncData` returns. -/
theorem syncData_result_strictDates
    (cacheRead : Except Unit (Option (List StockDataPoint)))
    (fetchFn : Option String → List StockDataPoint) (writeOk : Bool)
    (hc : ∀ v, cacheRead = Except.ok v → strictDates (v.getD []))
    (hf : ∀ q, strictDates (fetchFn q)) :
    strictDates (syncData cacheRead fetchFn writeOk).result := by
  cases cacheRead with
  | error e => exact hf none
  | ok v =>
    have hcv : strictDates (v.getD []) := hc v rfl
    show strictDates (syncData (Except.ok v) fetchFn writeOk).result
    rw [syncData]
    cases hlast : (v.getD []).getLast? with
    | none =>
      simp only [hlast, Option.map_none']
      split
      · exact hcv
      · split
        · exact hf none
        · exact hf none
    | some lastBar =>
      simp only [hlast, Option.map_some']
      split
      · exact hcv
      · split
        · exact hcv
        · split
          · exact strictDates_append_filter hcv (hf (some lastBar.date)) hlast
          · exact hf none

/-- A minimal bar carrying only a date, for the merge example. -/
def c1Bar (d : String) : StockDataPoint :=
  { date := d, close := 1, volume := 1 }

/-- Cached sequence with dates d1..d10 (zero-padded so that string order
is date order). -/
def c1Cached : List StockDataPoint :=
  ["d01", "d02", "d03", "d04", "d05", "d06", "d07", "d08", "d09", "d10"].map c1Bar

/-- Fetch returning dates d8..d15 (inclusive overlap with the cache). -/
def c1Fetch : Option String → List StockDataPoint := fun _ =>
  ["d08", "d09", "d10", "d11", "d12", "d13", "d14", "d15"].map c1Bar

/-- The expected merge: d1..d15, each date once. -/
def c1Merged : List StockDataPoint :=
  ["d01", "d02", "d03", "d04", "d05", "d06", "d07", "d08", "d09", "d10",
   "d11", "d12", "d13", "d14", "d15"].map c1Bar

/-- C1: for every cached sequence with strictly increasing dates and every
fetch function returning sequences in (strictly) ascending date order, the
sequence returned by `syncData` has strictly increasing dates with no
duplicates; in particular, merging cached dates d1..d10 with a fetch
returning d8..d15 yields exactly d1..d15 (d8–d10 appearing once). -/
theorem sync_merge_invariant :
    (∀ (cacheRead : Except Unit (Option (List StockDataPoint)))
        (fetchFn : Option String → List StockDataPoint) (writeOk : Bool),
        (∀ v, cacheRead = Except.ok v → strictDates (v.getD [])) →
        (∀ q, strictDates (fetchFn q)) →
        strictDates (syncData cacheRead fetchFn writeOk).result ∧
          ((syncData cacheRead fetchFn writeOk).result.map (·.date)).Nodup) ∧
    (syncData (Except.ok (some c1Cached)) c1Fetch true).result = c1Merged := by
  constructor
  · intro cacheRead fetchFn writeOk hc hf
    have h := syncData_result_strictDates cacheRead fetchFn writeOk hc hf
    exact ⟨h, strictDates_nodup h⟩
  · decide!

/-- C1 witness: the invariant instantiated at the concrete d1..d10 cache
and d8..d15 fetch. -/
theorem sync_merge_invariant_witness :
    strictDates (syncData (Except.ok (some c1Cached)) c1Fetch true).result ∧
      ((syncData (Except.ok (some c1Cached)) c1Fetch true).result.map
        (·.date)).Nodup :=
  sync_merge_invariant.1 (Except.ok (some c1Cached)) c1Fetch true
    (fun v hv => by
      cases hv
      exact (strictDates_iff _).mpr (by decide!))
    (fun _ => (strictDates_iff
      (["d08", "d09", "d10", "d11", "d12", "d13", "d14", "d15"].map c1Bar)).mpr
      (by decide!))

/-- C5: when the fetch yields nothing strictly beyond the cached last date
(nothing at all if the cache is empty), `syncData` returns the cache
unchanged and writes nothing; consequently a second call over the
resulting store state returns the identical outcome (and in particular
performs no write either). -/
theorem sync_idempotent (v : Option (List StockDataPoint))
    (fetchFn : Option String → List StockDataPoint) (writeOk : Bool)
    (h : match (v.getD []).getLast? with
         | some lastBar => ∀ b ∈ fetchFn (some lastBar.date), ¬ lastBar.date < b.date
         | none => fetchFn none = []) :
    ((syncData (Except.ok v) fetchFn writeOk).result = v.getD [] ∧
      (syncData (Except.ok v) fetchFn writeOk).written = none) ∧
    syncData (Except.ok (cacheAfter v (syncData (Except.ok v) fetchFn writeOk)))
        fetchFn writeOk = syncData (Except.ok v) fetchFn writeOk := by
  have key : syncData (Except.ok v) fetchFn writeOk =
      { result := v.getD [], written := none } := by
    cases hlast : (v.getD []).getLast? with
    | none =>
      simp only [hlast] at h
      rw [syncData]
      simp only [hlast, Option.map_none', h, List.isEmpty_nil, if_true]
    | some lastBar =>
      simp only [hlast] at h
      rw [syncData]
      simp only [hlast, Option.map_some']
      by_cases hemp : (fetchFn (some lastBar.date)).isEmpty
      · rw [if_pos hemp]
      · rw [if_neg hemp]
        have hfil : (fetchFn (some lastBar.date)).filter
            (fun d => lastBar.date < d.date) = [] := by
          rw [List.filter_eq_nil_iff]
          intro b hb
          simpa using h b hb
        simp only [hfil, List.isEmpty_nil, if_true]
  refine ⟨⟨by rw [key], by rw [key]⟩, ?_⟩
  rw [key]
  exact key

/-- Concrete idempotency instance: a two-bar cache and a fetch that only
re-serves the boundary date. -/
theorem sync_idempotent_witness :
    ((syncData (Except.ok (some [c1Bar "d01", c1Bar "d02"]))
        (fun _ => [c1Bar "d02"]) true).result = [c1Bar "d01", c1Bar "d02"] ∧
      (syncData (Except.ok (some [c1Bar "d01", c1Bar "d02"]))
        (fun _ => [c1Bar "d02"]) true).written = none) ∧
    syncData (Except.ok (cacheAfter (some [c1Bar "d01", c1Bar "d02"])
        (syncData (Except.ok (some [c1Bar "d01", c1Bar "d02"]))
          (fun _ => [c1Bar "d02"]) true)))
        (fun _ => [c1Bar "d02"]) true =
      syncData (Except.ok (some [c1Bar "d01", c1Bar "d02"]))
        (fun _ => [c1Bar "d02"]) true :=
  sync_idempotent (some [c1Bar "d01", c1Bar "d02"]) (fun _ => [c1Bar "d02"])
    true (by exact (show ∀ b ∈ [c1Bar "d02"], ¬ "d02" < b.date by decide!))

/-- The write step of `syncData` is reached: the fetch returned something,
and (for a nonempty cache) some fetched bar survives the boundary filter. -/
def writeAttempted (v : Option (List StockDataPoint))
    (fetchFn : Option String → List StockDataPoint) : Prop :=
  fetchFn ((v.getD []).getLast?.map (·.date)) ≠ [] ∧
    (match (v.getD []).getLast? with
     | none => True
     | some lastBar =>
        (fetchFn (some lastBar.date)).filter
          (fun d => lastBar.date < d.date) ≠ [])

/-- C6: a failed cache read, or a failed cache write (when one is
attempted), makes `syncData` return the result of the no-since-date fetch,
with nothing persisted — the failure is not propagated to the caller. -/
theorem sync_fallback_on_failure :
    (∀ (fetchFn : Option String → List StockDataPoint) (writeOk : Bool),
        syncData (Except.error ()) fetchFn writeOk =
          { result := fetchFn none, written := none }) ∧
    (∀ (v : Option (List StockDataPoint))
        (fetchFn : Option String → List StockDataPoint),
        writeAttempted v fetchFn →
        syncData (Except.ok v) fetchFn false =
          { result := fetchFn none, written := none }) := by
  constructor
  · intro fetchFn writeOk
    rfl
  · intro v fetchFn h
    rcases h with ⟨hne, hfil⟩
    cases hlast : (v.getD []).getLast? with
    | none =>
      simp only [hlast, Option.map_none'] at hne
      rw [syncData]
      simp only [hlast, Option.map_none']
      rw [if_neg (by simpa [List.isEmpty_iff] using hne)]
      simp
    | some lastBar =>
      simp only [hlast, Option.map_some'] at hne
      simp only [hlast] at hfil
      rw [syncData]
      simp only [hlast, Option.map_some']
      rw [if_neg (by simpa [List.isEmpty_iff] using hne)]
      rw [if_neg (by simpa [List.isEmpty_iff] using hfil)]
      simp

/-- Concrete instance of both failure paths of C6. -/
theorem sync_fallback_on_failure_witness :
    syncData (Except.error ()) (fun _ => [c1Bar "d02"]) true =
        { result := [c1Bar "d02"], written := none } ∧
    syncData (Except.ok (some [c1Bar "d01"])) (fun _ => [c1Bar "d02"]) false =
        { result := [c1Bar "d02"], written := none } :=
  ⟨sync_fallback_on_failure.1 (fun _ => [c1Bar "d02"]) true,
   sync_fallback_on_failure.2 (some [c1Bar "d01"]) (fun _ => [c1Bar "d02"])
     ⟨by exact (show ([c1Bar "d02"] : List StockDataPoint) ≠ [] by decide!),
      by exact (show List.filter (fun d => decide ("d01" < d.date))
          [c1Bar "d02"] ≠ [] by decide!)⟩⟩

/-- A fetch whose result repeats a date. -/
def c7Fetch : Option String → List StockDataPoint := fun _ =>
  [c1Bar "dup", c1Bar "dup"]

/-- C7 counterexample: on the fallback path `syncData` returns the fetch
result verbatim; a fetch result with a repeated date passes through, so
the fallback does not enforce the uniqueness/ordering invariant. -/
theorem sync_fallback_no_dedup_cex :
    ¬ (((syncData (Except.error ()) c7Fetch true).result.map (·.date)).Nodup ∧
        strictDates (syncData (Except.error ()) c7Fetch true).result) := by
  intro hcl
  have e : (syncData (Except.error ()) c7Fetch true).result.map (·.date) =
      ["dup", "dup"] := rfl
  rw [e] at hcl
  simp at hcl

/-- C7 amended: for every fetch function, the fallback path returns the
no-since-date fetch result verbatim — enforcing no deduplication or
reordering whatsoever — and performs no write; hence the returned
sequence has strictly increasing, duplicate-free dates exactly when the
fetch result itself does. -/
theorem sync_fallback_invariant_amended
    (fetchFn : Option String → List StockDataPoint) (writeOk : Bool) :
    (syncData (Except.error ()) fetchFn writeOk).result = fetchFn none ∧
    (syncData (Except.error ()) fetchFn writeOk).written = none ∧
    ((strictDates (syncData (Except.error ()) fetchFn writeOk).result ∧
        ((syncData (Except.error ()) fetchFn writeOk).result.map (·.date)).Nodup) ↔
      (strictDates (fetchFn none) ∧ ((fetchFn none).map (·.date)).Nodup)) :=
  ⟨rfl, rfl, Iff.rfl⟩

theorem calculateMA_length (dayCount : ℕ) (data : List StockDataPoint)
    (field : StockDataPoint → ℚ) :
    (calculateMA dayCount data field).length = data.length := by
  simp [calculateMA]

/-- Entry formula of `calculateMA`, read off the `range`-map definition. -/
theorem calculateMA_getD (dayCount : ℕ) (data : List StockDataPoint)
    (field : StockDataPoint → ℚ) (i : ℕ) (hi : i < data.length) :
    (calculateMA dayCount data field).getD i none =
      if i < dayCount - 1 then none
      else some (round4 ((((List.range dayCount).map
        (fun j => field (data.getD (i - j) default))).sum) / (dayCount : ℚ))) := by
  unfold calculateMA
  rw [List.getD_eq_getElem?_getD, List.getElem?_map, List.getElem?_range hi]
  rfl

/-- The backwards scan of the source (`data[i-j]`, `j = 0 … w-1`) sums the
same values as the forward window `data[i-w+1 … i]`. -/
theorem window_sum_eq (data : List StockDataPoint)
    (field : StockDataPoint → ℚ) :
    ∀ (w i : ℕ), 1 ≤ w → i < data.length → w - 1 ≤ i →
    (((data.drop (i + 1 - w)).take w).map field).sum =
      ((List.range w).map (fun j => field (data.getD (i - j) default))).sum := by
  intro w
  induction w with
  | zero => intro i h; omega
  | succ w ih =>
    intro i _ hi hwi
    cases Nat.eq_zero_or_pos w with
    | inl hw0 =>
      subst hw0
      have hdrop : data.drop i = data[i] :: data.drop (i + 1) :=
        List.drop_eq_getElem_cons hi
      simp only [Nat.add_sub_cancel, hdrop, List.take_succ_cons, List.take_zero,
        List.map_cons, List.map_nil, List.sum_cons, List.sum_nil,
        List.range_succ, List.range_zero, List.nil_append, Nat.sub_zero,
        List.map_append, List.sum_append]
      rw [List.getD_eq_getElem?_getD, List.getElem?_eq_getElem hi]
      simp
    | inr hw1 =>
      have hwle : w ≤ i := by omega
      have hiw : i - w < data.length := by omega
      have hdrop : data.drop (i - w) = data[i - w] :: data.drop (i - w + 1) :=
        List.drop_eq_getElem_cons hiw
      have he1 : i + 1 - (w + 1) = i - w := by omega
      have he2 : i - w + 1 = i + 1 - w := by omega
      rw [he1, hdrop, List.take_succ_cons, List.map_cons, List.sum_cons, he2,
        ih i hw1 hi (by omega), List.range_succ, List.map_append, List.sum_append]
      simp only [List.map_cons, List.map_nil, List.sum_cons, List.sum_nil]
      rw [List.getD_eq_getElem?_getD, List.getElem?_eq_getElem hiw]
      simp [add_comm]

/-- C4: `calculateMA w s field` has the length of `s`; entries below index
`w-1` are unavailable; any later entry is the mean of the field over the
trailing `w` bars rounded to 4 decimals; and with `w = 1` every entry is
the raw field value rounded identically. -/
theorem calculateMA_spec (w : ℕ) (data : List StockDataPoint)
    (field : StockDataPoint → ℚ) (hw : 1 ≤ w) :
    (calculateMA w data field).length = data.length ∧
    (∀ i, i < data.length → i < w - 1 →
      (calculateMA w data field).getD i none = none) ∧
    (∀ i, i < data.length → w - 1 ≤ i →
      (calculateMA w data field).getD i none =
        some (round4 ((((data.drop (i + 1 - w)).take w).map field).sum / (w : ℚ)))) ∧
    (w = 1 → ∀ i, i < data.length →
      (calculateMA w data field).getD i none =
        some (round4 (field (data.getD i default)))) := by
  refine ⟨calculateMA_length w data field, ?_, ?_, ?_⟩
  · intro i hi hlt
    rw [calculateMA_getD w data field i hi, if_pos hlt]
  · intro i hi hge
    rw [calculateMA_getD w data field i hi, if_neg (by omega),
      window_sum_eq data field w i hw hi hge]
  · rintro rfl i hi
    rw [calculateMA_getD 1 data field i hi, if_neg (by omega)]
    simp only [List.range_succ, List.range_zero, List.nil_append,
      List.map_cons, List.map_nil, List.sum_cons, List.sum_nil, Nat.sub_zero,
      Nat.cast_one, div_one, add_zero]

/-- C4 instantiated at window 2 over a three-bar series. -/
theorem calculateMA_spec_witness :
    (calculateMA 2 [c1Bar "d01", c1Bar "d02", c1Bar "d03"] (·.volume)).length = 3 ∧
    (∀ i, i < 3 → i < 1 →
      (calculateMA 2 [c1Bar "d01", c1Bar "d02", c1Bar "d03"] (·.volume)).getD i none = none) ∧
    (∀ i, i < 3 → 1 ≤ i →
      (calculateMA 2 [c1Bar "d01", c1Bar "d02", c1Bar "d03"] (·.volume)).getD i none =
        some (round4 (((([c1Bar "d01", c1Bar "d02", c1Bar "d03"].drop (i + 1 - 2)).take 2).map
          (·.volume)).sum / (2 : ℚ)))) ∧
    (2 = 1 → ∀ i, i < 3 →
      (calculateMA 2 [c1Bar "d01", c1Bar "d02", c1Bar "d03"] (·.volume)).getD i none =
        some (round4 (([c1Bar "d01", c1Bar "d02", c1Bar "d03"].getD i default).volume))) :=
  calculateMA_spec 2 [c1Bar "d01", c1Bar "d02", c1Bar "d03"] (·.volume) (by decide)

/-- `jsRound` of a nonnegative value, via `Rat.le_floor`: lower bound. -/
theorem jsRound_nonneg {q : ℚ} (h : 0 ≤ q) : 0 ≤ jsRound q := by
  rw [jsRound, if_neg (not_lt.mpr h)]
  exact Rat.le_floor.mpr (by push_cast; linarith)

/-- `jsRound` of a value at most `m`, for integer `m ≥ 0`: upper bound. -/
theorem jsRound_le {q : ℚ} {m : ℤ} (h0 : 0 ≤ q) (h : q ≤ (m : ℚ)) :
    jsRound q ≤ m := by
  rw [jsRound, if_neg (not_lt.mpr h0)]
  by_contra hc
  have hm1 : m + 1 ≤ (q + 1/2).floor := by omega
  have := Rat.le_floor.mp hm1
  push_cast at this
  linarith

/-- `round2` keeps values inside `[0, 100]`. -/
theorem round2_bounds {q : ℚ} (h0 : 0 ≤ q) (h1 : q ≤ 100) :
    0 ≤ round2 q ∧ round2 q ≤ 100 := by
  have hn0 : 0 ≤ jsRound (q * 100) := jsRound_nonneg (by linarith)
  have hn1 : jsRound (q * 100) ≤ 10000 :=
    jsRound_le (by linarith) (by push_cast; linarith)
  constructor
  · rw [round2]
    positivity
  · rw [round2, div_le_iff₀ (by norm_num)]
    have : (jsRound (q * 100) : ℚ) ≤ 10000 := by exact_mod_cast hn1
    linarith

/-- The `maxH` fold with a number already in the accumulator computes an
upper bound of the scanned values that is one of them (or the seed). -/
theorem jsMaxHigh_go_spec (w : List StockDataPoint) :
    ∀ a : ℚ, ∃ r, w.foldl (fun m b =>
        match m with
        | none => some (b.high.getD 0)
        | some m0 => if m0 < b.high.getD 0 then some (b.high.getD 0) else some m0)
        (some a) = some r ∧
      a ≤ r ∧ (∀ b ∈ w, b.high.getD 0 ≤ r) ∧
      (r = a ∨ ∃ b ∈ w, r = b.high.getD 0) := by
  induction w with
  | nil => exact fun a => ⟨a, rfl, le_refl a, by simp, Or.inl rfl⟩
  | cons c t ih =>
    intro a
    by_cases hc : a < c.high.getD 0
    · rcases ih (c.high.getD 0) with ⟨r, hr, har, hall, hprov⟩
      refine ⟨r, by simpa [hc] using hr, le_trans (le_of_lt hc) har, ?_, ?_⟩
      · intro b hb
        rcases List.mem_cons.mp hb with rfl | hb'
        · exact har
        · exact hall b hb'
      · rcases hprov with rfl | ⟨b, hb, rfl⟩
        · exact Or.inr ⟨c, List.mem_cons_self c t, rfl⟩
        · exact Or.inr ⟨b, List.mem_cons_of_mem c hb, rfl⟩
    · rcases ih a with ⟨r, hr, har, hall, hprov⟩
      refine ⟨r, by simpa [hc] using hr, har, ?_, ?_⟩
      · intro b hb
        rcases List.mem_cons.mp hb with rfl | hb'
        · exact le_trans (not_lt.mp hc) har
        · exact hall b hb'
      · rcases hprov with rfl | ⟨b, hb, rfl⟩
        · exact Or.inl rfl
        · exact Or.inr ⟨b, List.mem_cons_of_mem c hb, rfl⟩

/-- `jsMaxHigh` of a nonempty window is the maximum of the `(high ?? 0)`
values and is attained. -/
theorem jsMaxHigh_spec (c : StockDataPoint) (t : List StockDataPoint) :
    ∃ r, jsMaxHigh (c :: t) = some r ∧
      (∀ b ∈ c :: t, b.high.getD 0 ≤ r) ∧ ∃ b ∈ c :: t, r = b.high.getD 0 := by
  rcases jsMaxHigh_go_spec t (c.high.getD 0) with ⟨r, hr, har, hall, hprov⟩
  refine ⟨r, hr, ?_, ?_⟩
  · intro b hb
    rcases List.mem_cons.mp hb with rfl | hb'
    · exact har
    · exact hall b hb'
  · rcases hprov with rfl | ⟨b, hb, rfl⟩
    · exact ⟨c, List.mem_cons_self c t, rfl⟩
    · exact ⟨b, List.mem_cons_of_mem c hb, rfl⟩

/-- The `minL` fold, dually. -/
theorem jsMinLow_go_spec (w : List StockDataPoint) :
    ∀ a : ℚ, ∃ r, w.foldl (fun m b =>
        match m with
        | none => some (b.low.getD 0)
        | some m0 => if b.low.getD 0 < m0 then some (b.low.getD 0) else some m0)
        (some a) = some r ∧
      r ≤ a ∧ (∀ b ∈ w, r ≤ b.low.getD 0) ∧
      (r = a ∨ ∃ b ∈ w, r = b.low.getD 0) := by
  induction w with
  | nil => exact fun a => ⟨a, rfl, le_refl a, by simp, Or.inl rfl⟩
  | cons c t ih =>
    intro a
    by_cases hc : c.low.getD 0 < a
    · rcases ih (c.low.getD 0) with ⟨r, hr, har, hall, hprov⟩
      refine ⟨r, by simpa [hc] using hr, le_trans har (le_of_lt hc), ?_, ?_⟩
      · intro b hb
        rcases List.mem_cons.mp hb with rfl | hb'
        · exact har
        · exact hall b hb'
      · rcases hprov with rfl | ⟨b, hb, rfl⟩
        · exact Or.inr ⟨c, List.mem_cons_self c t, rfl⟩
        · exact Or.inr ⟨b, List.mem_cons_of_mem c hb, rfl⟩
    · rcases ih a with ⟨r, hr, har, hall, hprov⟩
      refine ⟨r, by simpa [hc] using hr, har, ?_, ?_⟩
      · intro b hb
        rcases List.mem_cons.mp hb with rfl | hb'
        · exact le_trans har (not_lt.mp hc)
        · exact hall b hb'
      · rcases hprov with rfl | ⟨b, hb, rfl⟩
        · exact Or.inl rfl
        · exact Or.inr ⟨b, List.mem_cons_of_mem c hb, rfl⟩

/-- `jsMinLow` of a nonempty window is the attained minimum of the
`(low ?? 0)` values. -/
theorem jsMinLow_spec (c : StockDataPoint) (t : List StockDataPoint) :
    ∃ r, jsMinLow (c :: t) = some r ∧
      (∀ b ∈ c :: t, r ≤ b.low.getD 0) ∧ ∃ b ∈ c :: t, r = b.low.getD 0 := by
  rcases jsMinLow_go_spec t (c.low.getD 0) with ⟨r, hr, har, hall, hprov⟩
  refine ⟨r, hr, ?_, ?_⟩
  · intro b hb
    rcases List.mem_cons.mp hb with rfl | hb'
    · exact har
    · exact hall b hb'
  · rcases hprov with rfl | ⟨b, hb, rfl⟩
    · exact ⟨c, List.mem_cons_self c t, rfl⟩
    · exact ⟨b, List.mem_cons_of_mem c hb, rfl⟩

/-- Bar `i` belongs to its own `N`-bar trailing window. -/
theorem self_mem_window (data : List StockDataPoint) (i : ℕ)
    (hi : i < data.length) (hN : hdyN ≤ i) :
    data.getD i default ∈ (data.drop (i + 1 - hdyN)).take hdyN := by
  have hNpos : 0 < hdyN := by decide
  have hlen : ((data.drop (i + 1 - hdyN)).take hdyN).length =
      min hdyN (data.length - (i + 1 - hdyN)) := by
    simp [List.length_take, List.length_drop]
  have hk : hdyN - 1 < ((data.drop (i + 1 - hdyN)).take hdyN).length := by
    rw [hlen]
    omega
  have hidx : i + 1 - hdyN + (hdyN - 1) = i := by omega
  have hdi : i + 1 - hdyN + (hdyN - 1) < data.length := by omega
  have hval : ((data.drop (i + 1 - hdyN)).take hdyN).get ⟨hdyN - 1, hk⟩ =
      data.getD i default := by
    rw [List.get_eq_getElem, List.getElem_take, List.getElem_drop, List.getD_eq_getElem?_getD,
      List.getElem?_eq_getElem (by omega : i < data.length)]
    simp only [Option.getD_some, hidx]
  rw [← hval]
  exact List.get_mem _ _ _

/-- With every bar's close between its substituted low and high, the raw
stochastic value stays inside `[0, 100]`. -/
theorem hdyRsv_bounds (data : List StockDataPoint)
    (hb : ∀ b ∈ data, b.low.getD 0 ≤ b.close ∧ b.close ≤ b.high.getD 0)
    (i : ℕ) (hi : i < data.length) (hN : hdyN ≤ i) :
    0 ≤ hdyRsv data i ∧ hdyRsv data i ≤ 100 := by
  have hself := self_mem_window data i hi hN
  unfold hdyRsv
  cases hwe : (data.drop (i + 1 - hdyN)).take hdyN with
  | nil => simp [hwe] at hself
  | cons c t =>
    rw [hwe] at hself
    dsimp only
    have hmemdata : ∀ b ∈ c :: t, b ∈ data := by
      intro b hbw
      rw [← hwe] at hbw
      exact List.mem_of_mem_drop (List.mem_of_mem_take hbw)
    rcases jsMaxHigh_spec c t with ⟨mh, hmh, hmaxall, _⟩
    rcases jsMinLow_spec c t with ⟨ml, hml, hminall, _⟩
    rw [hmh, hml]
    set B := data.getD i default with hB
    have hBd : B ∈ data := hmemdata B hself
    have h1 : ml ≤ B.close := le_trans (hminall B hself) (hb B hBd).1
    have h2 : B.close ≤ mh := le_trans (hb B hBd).2 (hmaxall B hself)
    by_cases hne : mh = ml
    · simp only [hne, ne_eq, not_true_eq_false, if_false]
      norm_num
    · simp only [ne_eq, hne, not_false_eq_true, if_true]
      have hlt : ml < mh := lt_of_le_of_ne (le_trans h1 h2) (Ne.symm hne)
      constructor
      · have : 0 ≤ (B.close - ml) / (mh - ml) :=
          div_nonneg (by linarith) (by linarith)
        linarith
      · have : (B.close - ml) / (mh - ml) ≤ 1 :=
          (div_le_one (by linarith)).mpr (by linarith)
        linarith

theorem hdy_fold_length (data : List StockDataPoint) :
    ∀ (is : List ℕ) (acc : List ℚ × ℚ),
    ((is.foldl (hdyStep data) acc).1).length = acc.1.length + is.length := by
  intro is
  induction is with
  | nil => intro acc; simp
  | cons i t ih =>
    intro acc
    rw [List.foldl_cons, ih]
    unfold hdyStep
    split <;> simp <;> omega

/-- Indices below the lookback only append the neutral value 50 and leave
the smoothing seed untouched. -/
theorem hdy_fold_prefix50 (data : List StockDataPoint) :
    ∀ (is : List ℕ) (acc : List ℚ × ℚ), (∀ i ∈ is, i < hdyN) →
    is.foldl (hdyStep data) acc = (acc.1 ++ List.replicate is.length 50, acc.2) := by
  intro is
  induction is with
  | nil => intro acc _; simp
  | cons i t ih =>
    intro acc hall
    rw [List.foldl_cons, ih _ (fun j hj => hall j (List.mem_cons_of_mem i hj))]
    unfold hdyStep
    rw [if_pos (hall i (List.mem_cons_self i t))]
    rw [List.length_cons, List.replicate_succ, List.append_assoc,
      List.singleton_append]

/-- The fold only ever appends to the output accumulator. -/
theorem hdy_fold_acc_prefix (data : List StockDataPoint) :
    ∀ (is : List ℕ) (acc : List ℚ × ℚ),
    ∃ t, (is.foldl (hdyStep data) acc).1 = acc.1 ++ t := by
  intro is
  induction is with
  | nil => exact fun acc => ⟨[], by simp⟩
  | cons i t ih =>
    intro acc
    rcases ih (hdyStep data acc i) with ⟨t', ht'⟩
    rw [List.foldl_cons, ht']
    unfold hdyStep
    split
    · exact ⟨[(50 : ℚ)] ++ t', by simp⟩
    · exact ⟨[round2 ((2 * hdyRsv data i + (hdyM - 1) * acc.2) / (hdyM + 1))] ++ t',
        by simp⟩

/-- The smoothing step keeps `[0, 100]` values inside `[0, 100]`. -/
theorem hdy_ema_bounds {rsv e : ℚ} (h0 : 0 ≤ rsv) (h1 : rsv ≤ 100)
    (he0 : 0 ≤ e) (he1 : e ≤ 100) :
    0 ≤ (2 * rsv + (hdyM - 1) * e) / (hdyM + 1) ∧
      (2 * rsv + (hdyM - 1) * e) / (hdyM + 1) ≤ 100 := by
  rw [hdyM]
  constructor
  · apply div_nonneg (by linarith) (by norm_num)
  · rw [div_le_iff₀ (by norm_num)]
    linarith

/-- All values the fold appends stay inside `[0, 100]`, given bars whose
close lies between the substituted low and high. -/
theorem hdy_fold_bounds (data : List StockDataPoint)
    (hb : ∀ b ∈ data, b.low.getD 0 ≤ b.close ∧ b.close ≤ b.high.getD 0) :
    ∀ (is : List ℕ) (acc : List ℚ × ℚ), (∀ i ∈ is, i < data.length) →
    (∀ x ∈ acc.1, 0 ≤ x ∧ x ≤ 100) → 0 ≤ acc.2 → acc.2 ≤ 100 →
    ∀ x ∈ (is.foldl (hdyStep data) acc).1, 0 ≤ x ∧ x ≤ 100 := by
  intro is
  induction is with
  | nil => intro acc _ hacc _ _; simpa using hacc
  | cons i t ih =>
    intro acc hall hacc he0 he1
    rw [List.foldl_cons]
    by_cases hiN : i < hdyN
    · apply ih _ (fun j hj => hall j (List.mem_cons_of_mem i hj))
      · intro x hx
        unfold hdyStep at hx
        rw [if_pos hiN] at hx
        rcases List.mem_append.mp hx with hx' | hx'
        · exact hacc x hx'
        · rcases List.mem_singleton.mp hx' with rfl
          norm_num
      · unfold hdyStep
        rw [if_pos hiN]
        exact he0
      · unfold hdyStep
        rw [if_pos hiN]
        exact he1
    · have hrsv := hdyRsv_bounds data hb i
        (hall i (List.mem_cons_self i t)) (not_lt.mp hiN)
      have hema := hdy_ema_bounds hrsv.1 hrsv.2 he0 he1
      apply ih _ (fun j hj => hall j (List.mem_cons_of_mem i hj))
      · intro x hx
        unfold hdyStep at hx
        rw [if_neg hiN] at hx
        rcases List.mem_append.mp hx with hx' | hx'
        · exact hacc x hx'
        · rcases List.mem_singleton.mp hx' with rfl
          exact round2_bounds hema.1 hema.2
      · unfold hdyStep
        rw [if_neg hiN]
        exact hema.1
      · unfold hdyStep
        rw [if_neg hiN]
        exact hema.2

theorem calculateHDY_length (data : List StockDataPoint) :
    (calculateHDY data).length = data.length := by
  unfold calculateHDY
  rw [hdy_fold_length]
  simp

/-- The first `min N length` output entries are exactly 50. -/
theorem calculateHDY_prefix (data : List StockDataPoint) :
    ∀ i, i < data.length → i < hdyN → (calculateHDY data).getD i 0 = 50 := by
  intro i hi hN
  have hm : data.length = min hdyN data.length + (data.length - min hdyN data.length) := by
    omega
  unfold calculateHDY
  rw [hm, List.range_add, List.foldl_append,
    hdy_fold_prefix50 data (List.range (min hdyN data.length)) ([], 50)
      (fun j hj => by
        have := List.mem_range.mp hj
        omega)]
  rcases hdy_fold_acc_prefix data
      ((List.range (data.length - min hdyN data.length)).map (min hdyN data.length + ·))
      (([] : List ℚ) ++ List.replicate (List.range (min hdyN data.length)).length 50, 50)
    with ⟨t, ht⟩
  rw [ht]
  simp only [List.nil_append, List.length_range]
  rw [List.getD_append _ _ _ _ (by
    rw [List.length_replicate]
    omega)]
  rw [List.getD_eq_getElem?_getD, List.getElem?_replicate, if_pos (by omega)]
  rfl

/-- Every output entry of `calculateHDY` lies in `[0, 100]`, for inputs
whose closes lie between the substituted lows and highs. -/
theorem calculateHDY_bounds (data : List StockDataPoint)
    (hb : ∀ b ∈ data, b.low.getD 0 ≤ b.close ∧ b.close ≤ b.high.getD 0) :
    ∀ x ∈ calculateHDY data, 0 ≤ x ∧ x ≤ 100 := by
  unfold calculateHDY
  apply hdy_fold_bounds data hb
  · intro i hi
    exact List.mem_range.mp hi
  · intro x hx
    simp at hx
  · norm_num
  · norm_num

/-- C2 (amended): `calculateHDY` preserves length and, for every input,
emits exactly 50 at every index below the 34-bar lookback; for inputs in
which every bar's close lies between its substituted low `(low ?? 0)` and
high `(high ?? 0)` it moreover keeps every output inside `[0, 100]`. -/
theorem calculateHDY_spec (data : List StockDataPoint) :
    (calculateHDY data).length = data.length ∧
    (∀ i, i < data.length → i < 34 → (calculateHDY data).getD i 0 = 50) ∧
    ((∀ b ∈ data, b.low.getD 0 ≤ b.close ∧ b.close ≤ b.high.getD 0) →
      ∀ x ∈ calculateHDY data, 0 ≤ x ∧ x ≤ 100) :=
  ⟨calculateHDY_length data,
    fun i hi h34 => calculateHDY_prefix data i hi h34,
    fun hb => calculateHDY_bounds data hb⟩

/-- A two-bar well-formed series for instantiating the oscillator spec. -/
def c2Bar : StockDataPoint :=
  { date := "d", close := 3/2, high := some 2, low := some 1 }

/-- C2 instantiated at a concrete well-formed two-bar series, the
range-bound hypothesis discharged by evaluation. -/
theorem calculateHDY_spec_witness :
    (calculateHDY [c2Bar, c2Bar]).length = ([c2Bar, c2Bar] : List StockDataPoint).length ∧
    (∀ i, i < ([c2Bar, c2Bar] : List StockDataPoint).length → i < 34 →
      (calculateHDY [c2Bar, c2Bar]).getD i 0 = 50) ∧
    (∀ x ∈ calculateHDY [c2Bar, c2Bar], 0 ≤ x ∧ x ≤ 100) :=
  ⟨(calculateHDY_spec [c2Bar, c2Bar]).1,
    (calculateHDY_spec [c2Bar, c2Bar]).2.1,
    (calculateHDY_spec [c2Bar, c2Bar]).2.2 (by decide!)⟩

/-- 34 flat bars in `[1, 2]` followed by a close of 1000 far above the
window's highs. -/
def hdyCexData : List StockDataPoint :=
  List.replicate 34 c2Bar ++
    [{ date := "d", close := 1000, high := some 2, low := some 1 }]

/-- C2 counterexample: with a close outside the window's high/low range
the unclamped `rsv` explodes and the oscillator leaves `[0, 100]` (entry
34 evaluates to 49975). -/
theorem calculateHDY_range_cex :
    ¬ (∀ x ∈ calculateHDY hdyCexData, 0 ≤ x ∧ x ≤ 100) := by
  intro h
  have hmem : (49975 : ℚ) ∈ calculateHDY hdyCexData := by decide!
  have hle := (h _ hmem).2
  norm_num at hle

/-- The signal is `buy` exactly on an available golden cross. -/
theorem strategySignal_eq_buy_iff (pS pL cS cL : Option ℚ) :
    strategySignal pS pL cS cL = .buy ↔
      ∃ a b c d, pS = some a ∧ pL = some b ∧ cS = some c ∧ cL = some d ∧
        a ≤ b ∧ d < c := by
  unfold strategySignal
  match pS, pL, cS, cL with
  | none, _, _, _ => simp
  | some a, none, _, _ => simp
  | some a, some b, none, _ => simp
  | some a, some b, some c, none => simp
  | some a, some b, some c, some d =>
    dsimp only
    constructor
    · intro h
      split_ifs at h with h1 h2
      · exact ⟨a, b, c, d, rfl, rfl, rfl, rfl, h2.1, h2.2⟩
    · rintro ⟨a', b', c', d', ha, hb, hc, hd, hle, hlt⟩
      cases ha; cases hb; cases hc; cases hd
      rw [if_neg (by
        rintro ⟨-, hcd⟩
        exact absurd hlt (not_lt.mpr (le_of_lt hcd))), if_pos ⟨hle, hlt⟩]

/-- The signal is `sell` exactly on an available death cross. -/
theorem strategySignal_eq_sell_iff (pS pL cS cL : Option ℚ) :
    strategySignal pS pL cS cL = .sell ↔
      ∃ a b c d, pS = some a ∧ pL = some b ∧ cS = some c ∧ cL = some d ∧
        b ≤ a ∧ c < d := by
  unfold strategySignal
  match pS, pL, cS, cL with
  | none, _, _, _ => simp
  | some a, none, _, _ => simp
  | some a, some b, none, _ => simp
  | some a, some b, some c, none => simp
  | some a, some b, some c, some d =>
    dsimp only
    constructor
    · intro h
      split_ifs at h with h1 h2
      · exact ⟨a, b, c, d, rfl, rfl, rfl, rfl, h1.1, h1.2⟩
    · rintro ⟨a', b', c', d', ha, hb, hc, hd, hle, hlt⟩
      cases ha; cases hb; cases hc; cases hd
      rw [if_pos ⟨hle, hlt⟩]

theorem stratStep_pad_fields (data : List StockDataPoint)
    (ma10 ma100 : List (Option ℚ)) (startIndex : ℕ) (initialPrice : ℚ)
    (s : StratState) (i : ℕ) (hlt : i < startIndex) :
    (stratStep data ma10 ma100 startIndex initialPrice s i).trades = s.trades ∧
    (stratStep data ma10 ma100 startIndex initialPrice s i).cash = s.cash ∧
    (stratStep data ma10 ma100 startIndex initialPrice s i).holdings = s.holdings := by
  unfold stratStep
  rw [if_pos hlt]
  exact ⟨rfl, rfl, rfl⟩

theorem stratStep_buy_fields (data : List StockDataPoint)
    (ma10 ma100 : List (Option ℚ)) (startIndex : ℕ) (initialPrice : ℚ)
    (s : StratState) (i : ℕ) (hge : ¬ i < startIndex)
    (hbuy : strategySignal (ma10.getD (i - 1) none) (ma100.getD (i - 1) none)
      (ma10.getD i none) (ma100.getD i none) = .buy)
    (hh : s.holdings = 0) :
    (stratStep data ma10 ma100 startIndex initialPrice s i).trades =
      s.trades ++ [⟨(data.getD i default).date, .buy,
        (data.getD i default).close, "金叉买入"⟩] ∧
    (stratStep data ma10 ma100 startIndex initialPrice s i).cash = 0 ∧
    (stratStep data ma10 ma100 startIndex initialPrice s i).holdings =
      s.cash / (data.getD i default).close := by
  unfold stratStep
  rw [if_neg hge]
  dsimp only
  rw [hbuy, if_pos ⟨rfl, hh⟩]
  exact ⟨rfl, rfl, rfl⟩

theorem stratStep_sell_fields (data : List StockDataPoint)
    (ma10 ma100 : List (Option ℚ)) (startIndex : ℕ) (initialPrice : ℚ)
    (s : StratState) (i : ℕ) (hge : ¬ i < startIndex)
    (hsell : strategySignal (ma10.getD (i - 1) none) (ma100.getD (i - 1) none)
      (ma10.getD i none) (ma100.getD i none) = .sell)
    (hh : 0 < s.holdings) :
    (stratStep data ma10 ma100 startIndex initialPrice s i).trades =
      s.trades ++ [⟨(data.getD i default).date, .sell,
        (data.getD i default).close, "死叉卖出"⟩] ∧
    (stratStep data ma10 ma100 startIndex initialPrice s i).cash =
      s.holdings * (data.getD i default).close ∧
    (stratStep data ma10 ma100 startIndex initialPrice s i).holdings = 0 := by
  unfold stratStep
  rw [if_neg hge]
  dsimp only
  rw [hsell]
  rw [if_neg (by rintro ⟨he, -⟩; cases he), if_pos ⟨rfl, hh⟩]
  exact ⟨rfl, rfl, rfl⟩

theorem stratStep_noop_fields (data : List StockDataPoint)
    (ma10 ma100 : List (Option ℚ)) (startIndex : ℕ) (initialPrice : ℚ)
    (s : StratState) (i : ℕ) (hge : ¬ i < startIndex)
    (hno1 : ¬ (strategySignal (ma10.getD (i - 1) none) (ma100.getD (i - 1) none)
      (ma10.getD i none) (ma100.getD i none) = .buy ∧ s.holdings = 0))
    (hno2 : ¬ (strategySignal (ma10.getD (i - 1) none) (ma100.getD (i - 1) none)
      (ma10.getD i none) (ma100.getD i none) = .sell ∧ 0 < s.holdings)) :
    (stratStep data ma10 ma100 startIndex initialPrice s i).trades = s.trades ∧
    (stratStep data ma10 ma100 startIndex initialPrice s i).cash = s.cash ∧
    (stratStep data ma10 ma100 startIndex initialPrice s i).holdings = s.holdings := by
  unfold stratStep
  rw [if_neg hge]
  dsimp only
  rw [if_neg hno1, if_neg hno2]
  exact ⟨rfl, rfl, rfl⟩

/-- C3: at each index `i ≥ startIndex`, the loop body of `runStrategy`
books a buy (all cash to holdings at `close_i`) exactly when the 10- and
100-period volume moving averages form an available golden cross while the
position is flat, books a sell (all holdings to cash at `close_i`) exactly
when they form an available death cross while long, and otherwise — in
particular whenever any of the four values is unavailable — leaves the
trade log, cash and holdings unchanged. -/
theorem stratStep_signal_characterization (data : List StockDataPoint)
    (s : StratState) (i : ℕ)
    (hge : ¬ i < findStartIndex data (calculateMA 100 data (·.volume))) :
    (let ma10 := calculateMA 10 data (·.volume)
     let ma100 := calculateMA 100 data (·.volume)
     let startIndex := findStartIndex data ma100
     let s' := stratStep data ma10 ma100 startIndex
       ((data.getD startIndex default).close) s i
     let price := (data.getD i default).close
     let date := (data.getD i default).date
     ((s'.trades = s.trades ++ [⟨date, .buy, price, "金叉买入"⟩] ∧
         s'.cash = 0 ∧ s'.holdings = s.cash / price) ↔
       ((∃ a b c d, ma10.getD (i - 1) none = some a ∧
           ma100.getD (i - 1) none = some b ∧ ma10.getD i none = some c ∧
           ma100.getD i none = some d ∧ a ≤ b ∧ d < c) ∧ s.holdings = 0)) ∧
     ((s'.trades = s.trades ++ [⟨date, .sell, price, "死叉卖出"⟩] ∧
         s'.cash = s.holdings * price ∧ s'.holdings = 0) ↔
       ((∃ a b c d, ma10.getD (i - 1) none = some a ∧
           ma100.getD (i - 1) none = some b ∧ ma10.getD i none = some c ∧
           ma100.getD i none = some d ∧ b ≤ a ∧ c < d) ∧ 0 < s.holdings)) ∧
     (¬ ((∃ a b c d, ma10.getD (i - 1) none = some a ∧
           ma100.getD (i - 1) none = some b ∧ ma10.getD i none = some c ∧
           ma100.getD i none = some d ∧ a ≤ b ∧ d < c) ∧ s.holdings = 0) →
      ¬ ((∃ a b c d, ma10.getD (i - 1) none = some a ∧
           ma100.getD (i - 1) none = some b ∧ ma10.getD i none = some c ∧
           ma100.getD i none = some d ∧ b ≤ a ∧ c < d) ∧ 0 < s.holdings) →
      s'.trades = s.trades ∧ s'.cash = s.cash ∧ s'.holdings = s.holdings)) := by
  dsimp only
  rw [← strategySignal_eq_buy_iff, ← strategySignal_eq_sell_iff]
  cases hA : strategySignal
      ((calculateMA 10 data (·.volume)).getD (i - 1) none)
      ((calculateMA 100 data (·.volume)).getD (i - 1) none)
      ((calculateMA 10 data (·.volume)).getD i none)
      ((calculateMA 100 data (·.volume)).getD i none) with
  | buy =>
    by_cases hh : s.holdings = 0
    · have hf := stratStep_buy_fields data (calculateMA 10 data (·.volume))
        (calculateMA 100 data (·.volume))
        (findStartIndex data (calculateMA 100 data (·.volume)))
        ((data.getD (findStartIndex data (calculateMA 100 data (·.volume)))
          default).close) s i hge hA hh
      refine ⟨?_, ?_, fun hnb _ => absurd ⟨rfl, hh⟩ hnb⟩
      · rw [hf.1, hf.2.1, hf.2.2]
        simp [hh]
      · rw [hf.1, hf.2.1, hf.2.2]
        simp [hh]
    · have hf := stratStep_noop_fields data (calculateMA 10 data (·.volume))
        (calculateMA 100 data (·.volume))
        (findStartIndex data (calculateMA 100 data (·.volume)))
        ((data.getD (findStartIndex data (calculateMA 100 data (·.volume)))
          default).close) s i hge
        (by rw [hA]; rintro ⟨-, h0⟩; exact hh h0)
        (by rw [hA]; rintro ⟨he, -⟩; cases he)
      refine ⟨?_, ?_, fun _ _ => ⟨hf.1, hf.2.1, hf.2.2⟩⟩
      · rw [hf.1, hf.2.1, hf.2.2]
        simp [hh]
      · rw [hf.1, hf.2.1, hf.2.2]
        simp [hh]
  | sell =>
    by_cases hh : 0 < s.holdings
    · have hf := stratStep_sell_fields data (calculateMA 10 data (·.volume))
        (calculateMA 100 data (·.volume))
        (findStartIndex data (calculateMA 100 data (·.volume)))
        ((data.getD (findStartIndex data (calculateMA 100 data (·.volume)))
          default).close) s i hge hA hh
      refine ⟨?_, ?_, fun _ hns => absurd ⟨rfl, hh⟩ hns⟩
      · rw [hf.1, hf.2.1, hf.2.2]
        simp [hh]
      · rw [hf.1, hf.2.1, hf.2.2]
        simp [hh]
    · have hf := stratStep_noop_fields data (calculateMA 10 data (·.volume))
        (calculateMA 100 data (·.volume))
        (findStartIndex data (calculateMA 100 data (·.volume)))
        ((data.getD (findStartIndex data (calculateMA 100 data (·.volume)))
          default).close) s i hge
        (by rw [hA]; rintro ⟨he, -⟩; cases he)
        (by rw [hA]; rintro ⟨-, h0⟩; exact hh h0)
      refine ⟨?_, ?_, fun _ _ => ⟨hf.1, hf.2.1, hf.2.2⟩⟩
      · rw [hf.1, hf.2.1, hf.2.2]
        simp [hh]
      · rw [hf.1, hf.2.1, hf.2.2]
        simp [hh]
  | hold =>
    have hf := stratStep_noop_fields data (calculateMA 10 data (·.volume))
      (calculateMA 100 data (·.volume))
      (findStartIndex data (calculateMA 100 data (·.volume)))
      ((data.getD (findStartIndex data (calculateMA 100 data (·.volume)))
        default).close) s i hge
      (by rw [hA]; rintro ⟨he, -⟩; cases he)
      (by rw [hA]; rintro ⟨he, -⟩; cases he)
    refine ⟨?_, ?_, fun _ _ => ⟨hf.1, hf.2.1, hf.2.2⟩⟩
    · rw [hf.1, hf.2.1, hf.2.2]
      simp
    · rw [hf.1, hf.2.1, hf.2.2]
      simp

/-- 101 flat bars: enough history for the 100-period average, no crosses. -/
def c3Data : List StockDataPoint :=
  (List.range 101).map (fun _ => { date := "", close := 1, volume := 1 })

/-- C3 instantiated at the first tradable index of a flat 101-bar series,
in the initial state. -/
theorem stratStep_signal_characterization_witness :
    (let ma10 := calculateMA 10 c3Data (·.volume)
     let ma100 := calculateMA 100 c3Data (·.volume)
     let startIndex := findStartIndex c3Data ma100
     let s := ({ cash := 100000, holdings := 0, trades := [],
                 capitalCurve := [], benchmarkCurve := [] } : StratState)
     let s' := stratStep c3Data ma10 ma100 startIndex
       ((c3Data.getD startIndex default).close) s 100
     let price := (c3Data.getD 100 default).close
     let date := (c3Data.getD 100 default).date
     ((s'.trades = s.trades ++ [⟨date, .buy, price, "金叉买入"⟩] ∧
         s'.cash = 0 ∧ s'.holdings = s.cash / price) ↔
       ((∃ a b c d, ma10.getD (100 - 1) none = some a ∧
           ma100.getD (100 - 1) none = some b ∧ ma10.getD 100 none = some c ∧
           ma100.getD 100 none = some d ∧ a ≤ b ∧ d < c) ∧ s.holdings = 0)) ∧
     ((s'.trades = s.trades ++ [⟨date, .sell, price, "死叉卖出"⟩] ∧
         s'.cash = s.holdings * price ∧ s'.holdings = 0) ↔
       ((∃ a b c d, ma10.getD (100 - 1) none = some a ∧
           ma100.getD (100 - 1) none = some b ∧ ma10.getD 100 none = some c ∧
           ma100.getD 100 none = some d ∧ b ≤ a ∧ c < d) ∧ 0 < s.holdings)) ∧
     (¬ ((∃ a b c d, ma10.getD (100 - 1) none = some a ∧
           ma100.getD (100 - 1) none = some b ∧ ma10.getD 100 none = some c ∧
           ma100.getD 100 none = some d ∧ a ≤ b ∧ d < c) ∧ s.holdings = 0) →
      ¬ ((∃ a b c d, ma10.getD (100 - 1) none = some a ∧
           ma100.getD (100 - 1) none = some b ∧ ma10.getD 100 none = some c ∧
           ma100.getD 100 none = some d ∧ b ≤ a ∧ c < d) ∧ 0 < s.holdings) →
      s'.trades = s.trades ∧ s'.cash = s.cash ∧ s'.holdings = s.holdings)) :=
  stratStep_signal_characterization c3Data
    { cash := 100000, holdings := 0, trades := [],
      capitalCurve := [], benchmarkCurve := [] } 100 (by decide!)

theorem findStartAux_all_none (ma100 : List (Option ℚ)) :
    ∀ (fuel i : ℕ), (∀ j, i ≤ j → j < i + fuel → ma100.getD j none = none) →
    findStartAux ma100 fuel i = i + fuel := by
  intro fuel
  induction fuel with
  | zero => intro i _; rfl
  | succ f ih =>
    intro i h
    rw [findStartAux, h i (le_refl i) (by omega), if_pos rfl,
      ih (i + 1) (fun j hj1 hj2 => h j (by omega) (by omega))]
    omega

/-- C8: a series shorter than 100 bars, or one whose 100-period volume
average is unavailable at every index from 100 on, yields the neutral
backtest result (the `isNaN(close)` disjunct of the source scan is
identically false in this rational-valued model). -/
theorem runStrategy_neutral (data : List StockDataPoint)
    (h : data.length < 100 ∨ ∀ i, 100 ≤ i → i < data.length →
      (calculateMA 100 data (·.volume)).getD i none = none) :
    runStrategy data = neutralResult := by
  have hle : data.length ≤ findStartIndex data (calculateMA 100 data (·.volume)) := by
    unfold findStartIndex
    by_cases hlen : data.length ≤ 100
    · rw [(show data.length - 100 = 0 by omega)]
      exact le_trans hlen (le_refl _)
    · rcases h with hshort | hall
      · omega
      · rw [findStartAux_all_none (calculateMA 100 data (·.volume))
          (data.length - 100) 100 (fun j hj1 hj2 => hall j hj1 (by omega))]
        omega
  unfold runStrategy
  rw [if_pos hle]

/-- C8 at the empty series. -/
theorem runStrategy_neutral_witness : runStrategy [] = neutralResult :=
  runStrategy_neutral [] (Or.inl (by decide))

/-- Spec-side win count: sells paired with the trade immediately before
them in the log. -/
def specWinTrades (l : List Trade) : ℕ :=
  ((l.zip l.tail).filter (fun p => p.2.type = .sell ∧ p.1.price < p.2.price)).length

/-- Recursive reference form of the win count. -/
def winCount : List Trade → ℕ
  | a :: b :: t => (if b.type = .sell ∧ a.price < b.price then 1 else 0) + winCount (b :: t)
  | _ => 0

theorem specWinTrades_eq_winCount : ∀ l : List Trade, specWinTrades l = winCount l
  | [] => rfl
  | [_] => rfl
  | a :: b :: t => by
    have ih := specWinTrades_eq_winCount (b :: t)
    unfold specWinTrades at ih ⊢
    unfold winCount
    rw [show (a :: b :: t).zip (a :: b :: t).tail = (a, b) :: ((b :: t).zip t)
      from rfl]
    rw [List.filter_cons]
    rw [show ((b :: t).zip (b :: t).tail) = (b :: t).zip t from rfl] at ih
    by_cases h : (b.type = .sell ∧ a.price < b.price)
    · rw [if_pos (by simpa using h), if_pos h, List.length_cons, ih]
      omega
    · rw [if_neg (by simpa using h), if_neg h, ih]
      omega

theorem codeWin_aux (full : List Trade) :
    ∀ (l : List Trade) (k : ℕ), full.drop k = l → 1 ≤ k →
    ((l.enumFrom k).filter (fun p => p.2.type = .sell ∧
      (full.getD (p.1 - 1) default).price < p.2.price)).length =
    winCount (full.getD (k - 1) default :: l)
  | [], _, _, _ => by simp [winCount]
  | b :: t, k, hdrop, hk => by
    have hbk : full[k]? = some b := by
      have h0 : (full.drop k)[0]? = some b := by rw [hdrop]; simp
      rwa [List.getElem?_drop, Nat.add_zero] at h0
    have hb : full.getD k default = b := by
      rw [List.getD_eq_getElem?_getD, hbk]
      rfl
    have hdrop' : full.drop (k + 1) = t := by
      rw [← List.tail_drop, hdrop]
      rfl
    have ih := codeWin_aux full t (k + 1) hdrop' (by omega)
    rw [List.enumFrom_cons, List.filter_cons]
    rw [show k + 1 - 1 = k from by omega, hb] at ih
    rw [show winCount (full.getD (k - 1) default :: b :: t) =
      (if b.type = .sell ∧ (full.getD (k - 1) default).price < b.price
        then 1 else 0) + winCount (b :: t) from rfl]
    by_cases h : (b.type = .sell ∧ (full.getD (k - 1) default).price < b.price)
    · rw [if_pos (by simpa using h), if_pos h, List.length_cons, ih]
      omega
    · rw [if_neg (by simpa using h), if_neg h, ih]
      omega

/-- The source's self-referential win-trade filter computes the spec-side
pairing (the out-of-range index 0 read compares a price with itself and
never counts). -/
theorem codeWinTrades_eq_winCount (l : List Trade) :
    codeWinTrades l = winCount l := by
  cases l with
  | nil => rfl
  | cons a t =>
    unfold codeWinTrades
    rw [show (a :: t).enum = (0, a) :: t.enumFrom 1 from rfl, List.filter_cons]
    rw [if_neg (by simp)]
    have := codeWin_aux (a :: t) t 1 rfl (le_refl 1)
    rw [show (1 : ℕ) - 1 = 0 from rfl] at this
    rw [this]
    rfl

/-- C9: `tradeCount` is the number of recorded trades, and `winRate` is
the 0-decimal percentage of sell trades whose price exceeds the price of
the trade immediately preceding them in the log ("0" when no sell trade
exists). -/
theorem runStrategy_winRate_spec (data : List StockDataPoint) :
    (runStrategy data).tradeCount = (runStrategy data).trades.length ∧
    (runStrategy data).winRate =
      (if 0 < ((runStrategy data).trades.filter (fun t => t.type = .sell)).length
       then jsToFixed0 ((specWinTrades (runStrategy data).trades : ℚ) /
          ((((runStrategy data).trades.filter (fun t => t.type = .sell)).length : ℚ))
          * 100)
       else "0") := by
  unfold runStrategy
  dsimp only
  split
  · exact ⟨rfl, rfl⟩
  · refine ⟨rfl, ?_⟩
    dsimp only
    rw [specWinTrades_eq_winCount, ← codeWinTrades_eq_winCount]

/-- Structural well-formedness of a trade log: it starts (if nonempty)
with a buy and strictly alternates sides. -/
def tradeLogOK (l : List Trade) : Prop :=
  (∀ a, l.head? = some a → a.type = .buy) ∧
  l.Chain' (fun a b => a.type ≠ b.type)

/-- Loop invariant of `runStrategy` tying the position to the trade log
(for positive prices): the log is well-formed, the position is long
exactly when the last trade is a buy, a flat position still holds positive
cash, and holdings are never negative. -/
def stratInv (s : StratState) : Prop :=
  tradeLogOK s.trades ∧
  (0 < s.holdings ↔ (∃ a, s.trades.getLast? = some a ∧ a.type = .buy)) ∧
  (s.holdings = 0 → 0 < s.cash) ∧ 0 ≤ s.holdings

theorem tradeLogOK_append_buy {l : List Trade} {t : Trade}
    (hok : tradeLogOK l) (ht : t.type = .buy)
    (hlast : ∀ a, l.getLast? = some a → a.type ≠ .buy) :
    tradeLogOK (l ++ [t]) := by
  constructor
  · intro a ha
    cases l with
    | nil =>
      simp at ha
      rw [← ha, ht]
    | cons x xs =>
      rw [List.cons_append, List.head?_cons, Option.some_inj] at ha
      exact hok.1 a (by rw [List.head?_cons, ha])
  · rw [List.chain'_append]
    refine ⟨hok.2, List.chain'_singleton t, ?_⟩
    intro x hx y hy
    simp only [List.head?_cons, Option.mem_def, Option.some_inj] at hy
    subst hy
    rw [ht]
    exact hlast x hx

theorem tradeLogOK_append_sell {l : List Trade} {t : Trade}
    (hok : tradeLogOK l) (ht : t.type = .sell) {a : Trade}
    (hlast : l.getLast? = some a) (ha : a.type = .buy) :
    tradeLogOK (l ++ [t]) := by
  constructor
  · intro x hx
    cases l with
    | nil => simp at hlast
    | cons y ys =>
      rw [List.cons_append, List.head?_cons, Option.some_inj] at hx
      exact hok.1 x (by rw [List.head?_cons, hx])
  · rw [List.chain'_append]
    refine ⟨hok.2, List.chain'_singleton t, ?_⟩
    intro x hx y hy
    simp only [List.head?_cons, Option.mem_def, Option.some_inj] at hy
    subst hy
    rw [Option.mem_def, hlast, Option.some_inj] at hx
    subst hx
    rw [ha, ht]
    exact fun h => TradeType.noConfusion h

theorem getD_mem_of_lt (l : List StockDataPoint) (i : ℕ) (hi : i < l.length) :
    l.getD i default ∈ l := by
  rw [List.getD_eq_getElem?_getD, List.getElem?_eq_getElem hi]
  exact List.getElem_mem hi

/-- One loop iteration preserves the position/log invariant when every
close in the series is positive. -/
theorem stratStep_preserves_inv (data : List StockDataPoint)
    (ma10 ma100 : List (Option ℚ)) (startIndex : ℕ) (initialPrice : ℚ)
    (hpos : ∀ b ∈ data, 0 < b.close) (s : StratState) (i : ℕ)
    (hi : i < data.length) (hinv : stratInv s) :
    stratInv (stratStep data ma10 ma100 startIndex initialPrice s i) := by
  by_cases hlt : i < startIndex
  · rcases stratStep_pad_fields data ma10 ma100 startIndex initialPrice s i hlt
      with ⟨h1, h2, h3⟩
    unfold stratInv
    rw [h1, h2, h3]
    exact hinv
  · have hp : 0 < (data.getD i default).close := hpos _ (getD_mem_of_lt data i hi)
    cases hA : strategySignal (ma10.getD (i - 1) none) (ma100.getD (i - 1) none)
        (ma10.getD i none) (ma100.getD i none) with
    | buy =>
      by_cases hh : s.holdings = 0
      · rcases stratStep_buy_fields data ma10 ma100 startIndex initialPrice s i
          hlt hA hh with ⟨h1, h2, h3⟩
        have hcash : 0 < s.cash := hinv.2.2.1 hh
        have hdiv : 0 < s.cash / (data.getD i default).close := div_pos hcash hp
        have hlastne : ∀ a, s.trades.getLast? = some a → a.type ≠ .buy := by
          intro a ha hbuy
          have h0 := hinv.2.1.mpr ⟨a, ha, hbuy⟩
          rw [hh] at h0
          exact lt_irrefl 0 h0
        unfold stratInv
        rw [h1, h2, h3]
        refine ⟨tradeLogOK_append_buy hinv.1 rfl hlastne, ?_, ?_, le_of_lt hdiv⟩
        · constructor
          · intro _
            exact ⟨_, List.getLast?_concat _, rfl⟩
          · intro _
            exact hdiv
        · intro h0
          rw [h0] at hdiv
          exact absurd hdiv (lt_irrefl 0)
      · rcases stratStep_noop_fields data ma10 ma100 startIndex initialPrice s i
          hlt (fun hc => hh hc.2) (by rw [hA]; rintro ⟨he, -⟩; cases he)
          with ⟨h1, h2, h3⟩
        unfold stratInv
        rw [h1, h2, h3]
        exact hinv
    | sell =>
      by_cases hh : 0 < s.holdings
      · rcases stratStep_sell_fields data ma10 ma100 startIndex initialPrice s i
          hlt hA hh with ⟨h1, h2, h3⟩
        rcases hinv.2.1.mp hh with ⟨a, ha, hab⟩
        unfold stratInv
        rw [h1, h2, h3]
        refine ⟨tradeLogOK_append_sell hinv.1 rfl ha hab, ?_, ?_, le_refl 0⟩
        · constructor
          · intro h00
            exact absurd h00 (lt_irrefl 0)
          · rintro ⟨x, hx, hxt⟩
            rw [List.getLast?_concat, Option.some_inj] at hx
            rw [← hx] at hxt
            cases hxt
        · intro _
          exact mul_pos hh hp
      · rcases stratStep_noop_fields data ma10 ma100 startIndex initialPrice s i
          hlt (by rw [hA]; rintro ⟨he, -⟩; cases he) (fun hc => hh hc.2)
          with ⟨h1, h2, h3⟩
        unfold stratInv
        rw [h1, h2, h3]
        exact hinv
    | hold =>
      rcases stratStep_noop_fields data ma10 ma100 startIndex initialPrice s i
        hlt (by rw [hA]; rintro ⟨he, -⟩; cases he)
        (by rw [hA]; rintro ⟨he, -⟩; cases he) with ⟨h1, h2, h3⟩
      unfold stratInv
      rw [h1, h2, h3]
      exact hinv

/-- The whole loop preserves the invariant. -/
theorem strat_fold_inv (data : List StockDataPoint)
    (ma10 ma100 : List (Option ℚ)) (startIndex : ℕ) (initialPrice : ℚ)
    (hpos : ∀ b ∈ data, 0 < b.close) :
    ∀ (is : List ℕ) (acc : StratState), (∀ i ∈ is, i < data.length) →
    stratInv acc →
    stratInv (is.foldl (stratStep data ma10 ma100 startIndex initialPrice) acc) := by
  intro is
  induction is with
  | nil => intro acc _ h; exact h
  | cons i t ih =>
    intro acc hall hacc
    rw [List.foldl_cons]
    exact ih _ (fun j hj => hall j (List.mem_cons_of_mem i hj))
      (stratStep_preserves_inv data ma10 ma100 startIndex initialPrice hpos acc i
        (hall i (List.mem_cons_self i t)) hacc)

theorem chain'_zip_tail {α : Type} {R : α → α → Prop} :
    ∀ l : List α, l.Chain' R → ∀ p ∈ l.zip l.tail, R p.1 p.2
  | [] => by simp
  | [_] => by simp
  | a :: b :: t => by
    intro h p hp
    rw [List.chain'_cons] at h
    rw [show (a :: b :: t).zip (a :: b :: t).tail = (a, b) :: ((b :: t).zip t)
      from rfl] at hp
    rcases List.mem_cons.mp hp with rfl | hp'
    · exact h.1
    · exact chain'_zip_tail (b :: t) h.2 p
        (by rw [show (b :: t).zip (b :: t).tail = (b :: t).zip t from rfl]
            exact hp')

/-- C10 (amended): for every series whose closes are all positive, the
trade log of `runStrategy` starts with a buy, strictly alternates sides,
and every sell is immediately preceded by a buy — so the win-rate lookup
of the preceding trade is in bounds and compares against a buy. -/
theorem runStrategy_trade_log_structure (data : List StockDataPoint)
    (hpos : ∀ b ∈ data, 0 < b.close) :
    (∀ a, (runStrategy data).trades.head? = some a → a.type = .buy) ∧
    (runStrategy data).trades.Chain' (fun a b => a.type ≠ b.type) ∧
    (∀ p ∈ (runStrategy data).trades.zip (runStrategy data).trades.tail,
      p.2.type = .sell → p.1.type = .buy) := by
  have key : tradeLogOK (runStrategy data).trades := by
    unfold runStrategy
    dsimp only
    split
    · exact ⟨fun a ha => by simp [neutralResult] at ha, by
        simp only [neutralResult]
        exact List.chain'_nil⟩
    · dsimp only
      have hinv0 : stratInv { cash := 100000, holdings := 0, trades := [], capitalCurve := [], benchmarkCurve := [] } := by
        refine ⟨⟨fun a ha => by simp at ha, List.chain'_nil⟩, ?_, ?_, le_refl 0⟩
        · constructor
          · intro h
            exact absurd h (lt_irrefl 0)
          · rintro ⟨a, ha, -⟩
            simp at ha
        · intro _
          norm_num
      exact (strat_fold_inv data (calculateMA 10 data (·.volume))
        (calculateMA 100 data (·.volume))
        (findStartIndex data (calculateMA 100 data (·.volume)))
        ((data.getD (findStartIndex data (calculateMA 100 data (·.volume)))
          default).close) hpos (List.range data.length) _
        (fun i hi => List.mem_range.mp hi) hinv0).1
  refine ⟨key.1, key.2, ?_⟩
  intro p hp hsell
  have hne := chain'_zip_tail _ key.2 p hp
  cases hpt : p.1.type with
  | buy => rfl
  | sell =>
    rw [hpt, hsell] at hne
    exact absurd rfl hne

/-- C10 instantiated at the flat 101-bar series (all closes positive). -/
theorem runStrategy_trade_log_structure_witness :
    (∀ a, (runStrategy c3Data).trades.head? = some a → a.type = .buy) ∧
    (runStrategy c3Data).trades.Chain' (fun a b => a.type ≠ b.type) ∧
    (∀ p ∈ (runStrategy c3Data).trades.zip (runStrategy c3Data).trades.tail,
      p.2.type = .sell → p.1.type = .buy) :=
  runStrategy_trade_log_structure c3Data (by decide!)

/-- 130 bars whose volume blocks force five volume-MA crossings; the sell
at index 110 happens at a close of 0, zeroing the cash so that later buys
leave holdings at 0 and re-trigger. -/
def c10Data : List StockDataPoint :=
  (List.range 130).map (fun i =>
    { date := "", close := if i = 110 then 0 else 1,
      volume := if i < 100 then 100 else if (i - 100) / 6 % 2 = 0 then 200 else 0 })

/-- C10 counterexample: with a sell at price 0 the log becomes
buy, sell, buy, buy — two consecutive buys, refuting strict alternation
for arbitrary bar sequences. -/
theorem runStrategy_alternation_cex :
    ¬ (runStrategy c10Data).trades.Chain' (fun a b => a.type ≠ b.type) := by
  intro h
  have htr : (runStrategy c10Data).trades.map (fun t => t.type) =
      [.buy, .sell, .buy, .buy] := by decide!
  rw [← List.chain'_map (fun t : Trade => t.type), htr] at h
  simp [List.chain'_cons] at h
